import Mathlib

/-!
Verification of the openclawAlpha real-time capture and pricing core.

Shallow embedding of the Python source:
  * src/src/polymarket_capturer.py : PriceCache, OrderBook, GammaClient.scan_15m_events
  * src/src/pricing.py             : PricingModel.compute_fair_value,
                                     PricingModel.estimate_vol_from_prices
  * src/backtest/runner.py         : BacktestRunner.backtest_detector (signal grading)

Machine floats are modelled as exact rationals (for the cache / order book /
backtester, whose arithmetic is order comparisons and ring operations) or as
real numbers (for the pricing model, which uses log / sqrt / a normal CDF).
Python dicts are modelled as functions to Option, or as association lists with
unique keys where iteration order matters.
-/

namespace OpenClaw

/-! ## List helper lemmas (general facts used by the cache proofs) -/

/-- Dropping exactly the length of the matching prefix is the same as
dropping the matching prefix. -/
theorem drop_takeWhile_length {α : Type} (p : α → Bool) :
    ∀ l : List α, l.drop (l.takeWhile p).length = l.dropWhile p
  | [] => rfl
  | x :: xs => by
    by_cases h : p x = true
    · simp [List.takeWhile_cons, List.dropWhile_cons, h, drop_takeWhile_length p xs]
    · simp [List.takeWhile_cons, List.dropWhile_cons, h]

/-- Inserting at the length of the matching prefix splices the element
between the matching prefix and the rest. -/
theorem insertIdx_takeWhile_length {α : Type} (p : α → Bool) (x : α) :
    ∀ l : List α,
      l.insertIdx (l.takeWhile p).length x = l.takeWhile p ++ x :: l.dropWhile p
  | [] => rfl
  | y :: ys => by
    by_cases h : p y = true
    · simp [List.takeWhile_cons, List.dropWhile_cons, h, List.insertIdx_succ_cons,
        insertIdx_takeWhile_length p x ys]
    · simp [List.takeWhile_cons, List.dropWhile_cons, h]

/-- The default-valued last element is either the default or a member. -/
theorem getLastD_mem_or {α : Type} : ∀ (l : List α) (d : α),
    l.getLastD d = d ∨ l.getLastD d ∈ l
  | [], _ => Or.inl rfl
  | x :: xs, d => by
    rw [List.getLastD_cons]
    rcases getLastD_mem_or xs x with h | h
    · rw [h]; exact Or.inr (List.mem_cons_self x xs)
    · exact Or.inr (List.mem_cons_of_mem x h)

/-- In a non-decreasing integer list every member is at most the last element. -/
theorem sorted_le_getLastD : ∀ {l : List Int}, l.Pairwise (· ≤ ·) →
    ∀ {b : Int}, b ∈ l → ∀ d : Int, b ≤ l.getLastD d
  | [], _, _, hb, _ => absurd hb (List.not_mem_nil _)
  | x :: xs, hs, b, hb, d => by
    rw [List.getLastD_cons]
    rcases List.mem_cons.mp hb with rfl | hmem
    · rcases getLastD_mem_or xs b with h | h
      · rw [h]
      · exact List.rel_of_pairwise_cons hs h
    · exact sorted_le_getLastD (List.Pairwise.of_cons hs) hmem x

/-- In a non-decreasing integer list, everything surviving
`dropWhile (· ≤ x)` is strictly greater than `x`. -/
theorem mem_dropWhile_gt {x : Int} {l : List Int} (hs : l.Pairwise (· ≤ ·))
    {b : Int} (hb : b ∈ l.dropWhile (fun a => decide (a ≤ x))) : x < b := by
  set p : Int → Bool := fun a => decide (a ≤ x) with hp
  have hpair : (l.dropWhile p).Pairwise (· ≤ ·) :=
    List.Pairwise.sublist (List.dropWhile_sublist p) hs
  have hhead := List.head?_dropWhile_not p l
  cases hdw : l.dropWhile p with
  | nil => rw [hdw] at hb; exact absurd hb (List.not_mem_nil _)
  | cons hd tl =>
    rw [hdw] at hhead hb hpair
    simp only [List.head?_cons] at hhead
    have hhd : x < hd := by
      have : ¬ (hd ≤ x) := by simpa [hp] using hhead
      omega
    rcases List.mem_cons.mp hb with rfl | hmem
    · exact hhd
    · exact lt_of_lt_of_le hhd (List.rel_of_pairwise_cons hpair hmem)

/-- If every member exceeds `x` then `takeWhile (· ≤ x)` is empty. -/
theorem takeWhile_eq_nil_of_gt {x : Int} : ∀ {l : List Int},
    (∀ b ∈ l, x < b) → l.takeWhile (fun a => decide (a ≤ x)) = []
  | [], _ => rfl
  | y :: ys, h => by
    have hy : x < y := h y (List.mem_cons_self y ys)
    have hny : ¬ (y ≤ x) := by omega
    simp [List.takeWhile_cons, hny]

/-- A non-empty `dropWhile` keeps the last element of the original list. -/
theorem dropWhile_getLast? {α : Type} (p : α → Bool) (l : List α)
    (h : l.dropWhile p ≠ []) : (l.dropWhile p).getLast? = l.getLast? := by
  conv_rhs => rw [← List.takeWhile_append_dropWhile p l]
  rw [List.getLast?_append]
  cases hdw : (l.dropWhile p).getLast? with
  | none => exact absurd (List.getLast?_eq_none_iff.mp hdw) h
  | some a => rfl

/-! ## PriceCache (src/src/polymarket_capturer.py, lines 39-79)

One `(source, asset)` series is the pair of Python parallel arrays
`_ts[key]` / `_px[key]`; the cache maps each key to an optional series
(absent key = key not in the dict). -/

/-- Parallel timestamp/price arrays of one `(source, asset)` series. -/
structure Series where
  ts : List Int
  px : List ℚ
deriving DecidableEq

/-- Python `bisect_right(a, x)` evaluated on a sorted list: the number of
leading elements that are `≤ x` (the insertion point after any equal
elements).  The cache keeps every series sorted, so this is exactly the
value the library binary search returns at every call site. -/
def bisect_right (a : List Int) (x : Int) : Nat :=
  (a.takeWhile (fun b => decide (b ≤ x))).length

/-- State of the Python `PriceCache` object. -/
structure PriceCache where
  max_age_ms : Int
  series : String × String → Option Series

/-- Python `PriceCache.__init__(max_age_sec=60*30)`:
`max_age_ms = max_age_sec * 1000`, empty dicts. -/
def PriceCache.init (max_age_sec : Int) : PriceCache :=
  ⟨max_age_sec * 1000, fun _ => none⟩

/-- The insert phase of `PriceCache.add` (lines 55-61): append when the series
is empty or the arrival is not older than the current last timestamp
(`ts_ms >= ts_arr[-1]`), otherwise insert both arrays at `bisect_right`. -/
def seriesInsert (s : Series) (ts_ms : Int) (price : ℚ) : Series :=
  if s.ts.isEmpty || decide (s.ts.getLastD 0 ≤ ts_ms) then
    ⟨s.ts ++ [ts_ms], s.px ++ [price]⟩
  else
    ⟨s.ts.insertIdx (bisect_right s.ts ts_ms) ts_ms,
     s.px.insertIdx (bisect_right s.ts ts_ms) price⟩

/-- The eviction phase of `PriceCache.add` (lines 63-67): with
`cutoff = ts_arr[-1] - max_age_ms`, delete the `j = bisect_right(ts_arr,
cutoff - 1)` leading entries, i.e. every entry strictly older than the
cutoff (Python guards with `if j > 0`, which is the identity when `j = 0`). -/
def seriesEvict (max_age_ms : Int) (s : Series) : Series :=
  let j := bisect_right s.ts (s.ts.getLastD 0 - max_age_ms - 1)
  ⟨s.ts.drop j, s.px.drop j⟩

/-- The series-level body of `PriceCache.add` (lines 52-67). -/
def seriesAdd (max_age_ms : Int) (s : Series) (ts_ms : Int) (price : ℚ) : Series :=
  seriesEvict max_age_ms (seriesInsert s ts_ms price)

/-- Python `PriceCache.add` (lines 46-67): create the series on first use
(`if key not in self._ts` installs empty arrays), then run the series-level
insert/evict and store the result back under the key. -/
def PriceCache.add (c : PriceCache) (source asset : String)
    (ts_ms : Int) (price : ℚ) : PriceCache :=
  { c with
    series := fun k =>
      if k = (source, asset) then
        some (seriesAdd c.max_age_ms
          ((c.series (source, asset)).getD ⟨[], []⟩) ts_ms price)
      else c.series k }

/-- The series-level body of `PriceCache.asof` (lines 71-79): Python computes
`i = bisect_right(ts_arr, ts_ms) - 1` and returns `(None, None)` when
`i < 0`, i.e. when `bisect_right` is `0`. -/
def seriesAsof (s : Series) (ts_ms : Int) : Option Int × Option ℚ :=
  if s.ts.isEmpty then (none, none)
  else if bisect_right s.ts ts_ms = 0 then (none, none)
  else (some (s.ts.getD (bisect_right s.ts ts_ms - 1) 0),
        some (s.px.getD (bisect_right s.ts ts_ms - 1) 0))

/-- Python `PriceCache.asof` (lines 69-79): `_ts.get(key)` is `None` for a
missing key, and `if not ts_arr` also catches an empty series. -/
def PriceCache.asof (c : PriceCache) (source asset : String)
    (ts_ms : Int) : Option Int × Option ℚ :=
  match c.series (source, asset) with
  | none => (none, none)
  | some s => seriesAsof s ts_ms

/-- A sequence of `add` calls, applied in order. -/
def PriceCache.addAll (c : PriceCache) (ops : List (String × String × Int × ℚ)) :
    PriceCache :=
  ops.foldl (fun acc op => acc.add op.1 op.2.1 op.2.2.1 op.2.2.2) c

/-- Well-formed series: non-decreasing timestamps and parallel arrays of
equal length. -/
def Series.Wf (s : Series) : Prop :=
  s.ts.Pairwise (· ≤ ·) ∧ s.ts.length = s.px.length

/-- Every stored series is well-formed. -/
def PriceCache.Wf (c : PriceCache) : Prop :=
  ∀ k s, c.series k = some s → s.Wf

/-! ## Cache lemmas -/

/-- Anything that is a member and fails the predicate survives `dropWhile`. -/
theorem mem_dropWhile_of_mem {α : Type} (p : α → Bool) {l : List α} {b : α}
    (hb : b ∈ l) (hpb : p b = false) : b ∈ l.dropWhile p := by
  have hb' : b ∈ l.takeWhile p ++ l.dropWhile p := by
    rw [List.takeWhile_append_dropWhile]; exact hb
  rcases List.mem_append.mp hb' with h | h
  · have := List.mem_takeWhile_imp h
    rw [hpb] at this
    exact absurd this (by simp)
  · exact h

/-- The default-valued last element of a non-empty list is a member. -/
theorem getLastD_mem {α : Type} : ∀ {l : List α}, l ≠ [] → ∀ d : α, l.getLastD d ∈ l
  | [], h, _ => absurd rfl h
  | x :: xs, _, d => by
    rw [List.getLastD_cons]
    rcases eq_or_ne xs [] with rfl | hne
    · simp
    · exact List.mem_cons_of_mem x (getLastD_mem hne x)

/-- On a non-empty list `getLast?` agrees with `getLastD` at any default. -/
theorem getLast?_eq_getLastD {α : Type} {l : List α} (h : l ≠ []) (d : α) :
    l.getLast? = some (l.getLastD d) := by
  cases hl : l.getLast? with
  | none => exact absurd (List.getLast?_eq_none_iff.mp hl) h
  | some a => simp [List.getLastD_eq_getLast?, hl]

/-- Full description of the insert phase on a well-formed series: the result
is sorted, keeps the arrays parallel, holds exactly the old entries plus the
new one, and its last timestamp is the max of the old last and the arrival. -/
theorem seriesInsert_spec (s : Series) (t : Int) (pr : ℚ) (h : s.Wf) :
    (seriesInsert s t pr).ts.Pairwise (· ≤ ·) ∧
    (seriesInsert s t pr).ts.length = (seriesInsert s t pr).px.length ∧
    (∀ b, b ∈ (seriesInsert s t pr).ts ↔ b = t ∨ b ∈ s.ts) ∧
    (seriesInsert s t pr).ts ≠ [] ∧
    (s.ts = [] → (seriesInsert s t pr).ts.getLast? = some t) ∧
    (∀ L, s.ts.getLast? = some L →
      (seriesInsert s t pr).ts.getLast? = some (max L t)) := by
  obtain ⟨hsort, hlen⟩ := h
  by_cases hc : (s.ts.isEmpty || decide (s.ts.getLastD 0 ≤ t)) = true
  · have hts : seriesInsert s t pr = ⟨s.ts ++ [t], s.px ++ [pr]⟩ := by
      unfold seriesInsert; rw [if_pos hc]
    have hle : ∀ a ∈ s.ts, a ≤ t := by
      intro a ha
      have hne : s.ts ≠ [] := List.ne_nil_of_mem ha
      have hE : s.ts.isEmpty = false := by
        simpa [List.isEmpty_iff] using hne
      rw [hE, Bool.false_or, decide_eq_true_eq] at hc
      exact (sorted_le_getLastD hsort ha 0).trans hc
    refine ⟨?_, ?_, ?_, ?_, ?_, ?_⟩
    · rw [hts]
      exact List.pairwise_append.mpr ⟨hsort, by simp, fun a ha b hb => by
        rw [List.mem_singleton.mp hb]; exact hle a ha⟩
    · rw [hts]; simp [hlen]
    · intro b; rw [hts]; simp [List.mem_append, or_comm]
    · rw [hts]; simp
    · intro _; rw [hts]; exact List.getLast?_concat s.ts
    · intro L hL
      have hne : s.ts ≠ [] := by
        intro hnil; rw [hnil] at hL; exact Option.noConfusion hL
      have hLt : L ≤ t := hle L (List.mem_of_mem_getLast? (Option.mem_def.mpr hL))
      rw [hts]
      have := List.getLast?_concat (a := t) s.ts
      rw [this, max_eq_right hLt]
  · have hc' : s.ts ≠ [] ∧ t < s.ts.getLastD 0 := by
      constructor
      · intro hnil
        apply hc
        rw [hnil]; rfl
      · by_contra hgt
        push_neg at hgt
        have hdec : decide (s.ts.getLastD 0 ≤ t) = true := decide_eq_true hgt
        exact hc (by rw [hdec, Bool.or_true])
    obtain ⟨hne, hlt⟩ := hc'
    have hsplit : (seriesInsert s t pr).ts
        = s.ts.takeWhile (fun b => decide (b ≤ t)) ++
          t :: s.ts.dropWhile (fun b => decide (b ≤ t)) := by
      unfold seriesInsert bisect_right
      rw [if_neg hc]
      exact insertIdx_takeWhile_length _ t s.ts
    have hdw_ne : s.ts.dropWhile (fun b => decide (b ≤ t)) ≠ [] := by
      intro hd
      have hmem : s.ts.getLastD 0 ∈ s.ts := getLastD_mem hne 0
      have := List.dropWhile_eq_nil_iff.mp hd _ hmem
      rw [decide_eq_true_eq] at this
      omega
    have htw_le : ∀ a ∈ s.ts.takeWhile (fun b => decide (b ≤ t)), a ≤ t := by
      intro a ha
      have := List.mem_takeWhile_imp ha
      rwa [decide_eq_true_eq] at this
    have hdw_gt : ∀ b ∈ s.ts.dropWhile (fun b => decide (b ≤ t)), t < b :=
      fun b hb => mem_dropWhile_gt hsort hb
    refine ⟨?_, ?_, ?_, ?_, ?_, ?_⟩
    · rw [hsplit]
      refine List.pairwise_append.mpr ⟨?_, ?_, ?_⟩
      · exact List.Pairwise.sublist (List.takeWhile_sublist _) hsort
      · exact List.pairwise_cons.mpr
          ⟨fun b hb => le_of_lt (hdw_gt b hb),
           List.Pairwise.sublist (List.dropWhile_sublist _) hsort⟩
      · intro a ha b hb
        rcases List.mem_cons.mp hb with rfl | hb'
        · exact htw_le a ha
        · exact (htw_le a ha).trans (le_of_lt (hdw_gt b hb'))
    · have hi_ts : bisect_right s.ts t ≤ s.ts.length :=
        (List.takeWhile_sublist _).length_le
      have hi_px : bisect_right s.ts t ≤ s.px.length := hlen ▸ hi_ts
      unfold seriesInsert
      rw [if_neg hc]
      simp [List.length_insertIdx _ _ hi_ts, List.length_insertIdx _ _ hi_px, hlen]
    · intro b
      rw [hsplit]
      have hmem : b ∈ s.ts ↔
          b ∈ s.ts.takeWhile (fun b => decide (b ≤ t)) ∨
          b ∈ s.ts.dropWhile (fun b => decide (b ≤ t)) := by
        conv_lhs => rw [← List.takeWhile_append_dropWhile (fun b => decide (b ≤ t)) s.ts]
        exact List.mem_append
      rw [List.mem_append, List.mem_cons, hmem]
      tauto
    · rw [hsplit]; simp
    · intro hnil; exact absurd hnil hne
    · intro L hL
      have hLD : s.ts.getLastD 0 = L := by
        have := getLast?_eq_getLastD hne (0 : Int)
        rw [hL] at this
        exact (Option.some.inj this).symm
      have hmax : max L t = L := max_eq_left (le_of_lt (hLD ▸ hlt))
      rw [hsplit, hmax]
      cases hdw : s.ts.dropWhile (fun b => decide (b ≤ t)) with
      | nil => exact absurd hdw hdw_ne
      | cons hd tl =>
        have hts_last : s.ts.getLast? = (hd :: tl).getLast? := by
          conv_lhs =>
            rw [← List.takeWhile_append_dropWhile (fun b => decide (b ≤ t)) s.ts]
          rw [List.getLast?_append, hdw]
          cases hlast : (hd :: tl).getLast? with
          | none => exact absurd (List.getLast?_eq_none_iff.mp hlast) (by simp)
          | some a => rfl
        rw [List.getLast?_append, List.getLast?_cons_cons, ← hts_last, hL]
        rfl

/-- The eviction phase drops exactly the matching sorted prefix. -/
theorem seriesEvict_ts (maxAge : Int) (s : Series) :
    (seriesEvict maxAge s).ts
      = s.ts.dropWhile (fun b => decide (b ≤ s.ts.getLastD 0 - maxAge - 1)) := by
  simp only [seriesEvict, bisect_right]
  exact drop_takeWhile_length _ s.ts

/-- Eviction preserves well-formedness. -/
theorem seriesEvict_wf (maxAge : Int) {s : Series} (h : s.Wf) :
    (seriesEvict maxAge s).Wf := by
  constructor
  · rw [seriesEvict_ts]
    exact List.Pairwise.sublist (List.dropWhile_sublist _) h.1
  · simp only [seriesEvict]
    simp [h.2]

/-- With a non-negative retention window, eviction keeps the newest entry and
so preserves the last timestamp. -/
theorem seriesEvict_getLast? (maxAge : Int) {s : Series} (hma : 0 ≤ maxAge)
    (hne : s.ts ≠ []) :
    (seriesEvict maxAge s).ts ≠ [] ∧
    (seriesEvict maxAge s).ts.getLast? = s.ts.getLast? := by
  have hL : s.ts.getLastD 0 ∈ s.ts := getLastD_mem hne 0
  have hpL : decide (s.ts.getLastD 0 ≤ s.ts.getLastD 0 - maxAge - 1) = false := by
    simp only [decide_eq_false_iff_not]
    omega
  have hnil : s.ts.dropWhile (fun b => decide (b ≤ s.ts.getLastD 0 - maxAge - 1)) ≠ [] := by
    intro hd
    have := List.dropWhile_eq_nil_iff.mp hd _ hL
    rw [hpL] at this
    exact absurd this (by simp)
  refine ⟨?_, ?_⟩
  · rw [seriesEvict_ts]; exact hnil
  · rw [seriesEvict_ts]
    exact dropWhile_getLast? _ s.ts hnil

/-- One `add` keeps a well-formed series well-formed. -/
theorem seriesAdd_wf (maxAge : Int) (s : Series) (t : Int) (pr : ℚ) (h : s.Wf) :
    (seriesAdd maxAge s t pr).Wf := by
  obtain ⟨h1, h2, _⟩ := seriesInsert_spec s t pr h
  exact seriesEvict_wf maxAge ⟨h1, h2⟩

/-- The empty series is well-formed. -/
theorem seriesWf_empty : Series.Wf ⟨[], []⟩ := ⟨List.Pairwise.nil, rfl⟩

/-- `PriceCache.add` preserves the cache invariant. -/
theorem priceCacheWf_add {c : PriceCache} (h : c.Wf) (src ast : String)
    (t : Int) (pr : ℚ) : (c.add src ast t pr).Wf := by
  intro k s hk
  simp only [PriceCache.add] at hk
  by_cases hkey : k = (src, ast)
  · rw [if_pos hkey] at hk
    obtain rfl := Option.some.inj hk
    apply seriesAdd_wf
    cases hs : c.series (src, ast) with
    | none => simpa [hs] using seriesWf_empty
    | some s0 => simpa [hs] using h _ _ hs
  · rw [if_neg hkey] at hk
    exact h _ _ hk

/-- A freshly initialized cache satisfies the invariant. -/
theorem priceCacheWf_init (maxAgeSec : Int) : (PriceCache.init maxAgeSec).Wf :=
  fun _ _ hk => by simp [PriceCache.init] at hk

/-- Any sequence of `add` calls preserves the invariant. -/
theorem priceCacheWf_addAll (ops : List (String × String × Int × ℚ)) :
    ∀ {c : PriceCache}, c.Wf → (c.addAll ops).Wf := by
  induction ops with
  | nil => intro c h; exact h
  | cons op rest ih =>
    intro c h
    exact ih (priceCacheWf_add h op.1 op.2.1 op.2.2.1 op.2.2.2)

/-- `getD` restricted to the left part of an append. -/
theorem getD_append_left {α : Type} {l₁ l₂ : List α} {n : Nat}
    (h : n < l₁.length) (d : α) : (l₁ ++ l₂).getD n d = l₁.getD n d := by
  simp [List.getD_eq_getElem?_getD, List.getElem?_append_left h]

/-- The default of `getLastD` is irrelevant on a non-empty list. -/
theorem getLastD_irrel {α : Type} {l : List α} (h : l ≠ []) (d₁ d₂ : α) :
    l.getLastD d₁ = l.getLastD d₂ := by
  have h1 := getLast?_eq_getLastD h d₁
  have h2 := getLast?_eq_getLastD h d₂
  rw [h1] at h2
  exact Option.some.inj h2

/-- `getD` at the final index is the last element. -/
theorem getD_length_sub_one {α : Type} : ∀ {l : List α}, l ≠ [] → ∀ d : α,
    l.getD (l.length - 1) d = l.getLastD d
  | [], h, _ => absurd rfl h
  | [x], _, d => rfl
  | x :: y :: ys, _, d => by
    have ih := getD_length_sub_one (l := y :: ys) (by simp) d
    have hlen : (x :: y :: ys).length - 1 = (y :: ys).length - 1 + 1 := by
      simp
    rw [hlen, List.getD_cons_succ, ih, List.getLastD_cons d x]
    exact getLastD_irrel (l := y :: ys) (by simp) d x

/-- Full description of the series-level as-of lookup on a well-formed
series: absence is equivalent to every retained entry being newer than the
query, and a hit returns the paired `(timestamp, price)` entry at the
greatest timestamp that is at most the query. -/
theorem seriesAsof_spec (s : Series) (t : Int) (h : s.Wf) :
    (seriesAsof s t = (none, none) ↔ ∀ b ∈ s.ts, t < b) ∧
    (∀ a p, seriesAsof s t = (some a, some p) →
      ∃ i : Nat, i < s.ts.length ∧ s.ts.getD i 0 = a ∧ s.px.getD i 0 = p ∧
        a ≤ t ∧ ∀ b ∈ s.ts, b ≤ t → b ≤ a) := by
  obtain ⟨hsort, _⟩ := h
  rcases eq_or_ne s.ts [] with hnil | hne
  · constructor
    · simp [seriesAsof, hnil]
    · intro a p hap
      simp [seriesAsof, hnil] at hap
  · have hE : s.ts.isEmpty = false := by simpa [List.isEmpty_iff] using hne
    by_cases hi0 : bisect_right s.ts t = 0
    · have hres : seriesAsof s t = (none, none) := by
        simp [seriesAsof, hE, hi0]
      have htw : s.ts.takeWhile (fun b => decide (b ≤ t)) = [] :=
        List.length_eq_zero.mp hi0
      have hdw : s.ts.dropWhile (fun b => decide (b ≤ t)) = s.ts := by
        conv_rhs =>
          rw [← List.takeWhile_append_dropWhile (fun b => decide (b ≤ t)) s.ts]
        rw [htw, List.nil_append]
      have hall : ∀ b ∈ s.ts, t < b := by
        intro b hb
        exact mem_dropWhile_gt hsort (by rw [hdw]; exact hb)
      refine ⟨by rw [hres]; exact iff_of_true rfl hall, ?_⟩
      intro a p hap
      rw [hres] at hap
      simp at hap
    · have hlen_tw : (s.ts.takeWhile (fun b => decide (b ≤ t))).length
          = bisect_right s.ts t := rfl
      have htw_ne : s.ts.takeWhile (fun b => decide (b ≤ t)) ≠ [] := by
        intro hnil2
        exact hi0 (by rw [← hlen_tw, hnil2]; rfl)
      have hile : bisect_right s.ts t ≤ s.ts.length :=
        (List.takeWhile_sublist _).length_le
      have hi1 : 1 ≤ bisect_right s.ts t := Nat.one_le_iff_ne_zero.mpr hi0
      have hidx : bisect_right s.ts t - 1 < s.ts.length := by omega
      have hA0 : ∀ n, n < (s.ts.takeWhile (fun b => decide (b ≤ t))).length →
          s.ts.getD n 0 = (s.ts.takeWhile (fun b => decide (b ≤ t))).getD n 0 := by
        intro n hn
        conv_lhs =>
          rw [← List.takeWhile_append_dropWhile (fun b => decide (b ≤ t)) s.ts]
        exact getD_append_left hn 0
      have hA : s.ts.getD (bisect_right s.ts t - 1) 0
          = (s.ts.takeWhile (fun b => decide (b ≤ t))).getLastD 0 := by
        rw [hA0 (bisect_right s.ts t - 1) (by rw [hlen_tw]; omega),
          ← getD_length_sub_one htw_ne 0, hlen_tw]
      have hA_mem : s.ts.getD (bisect_right s.ts t - 1) 0
          ∈ s.ts.takeWhile (fun b => decide (b ≤ t)) := by
        rw [hA]; exact getLastD_mem htw_ne 0
      have hA_le : s.ts.getD (bisect_right s.ts t - 1) 0 ≤ t := by
        have := List.mem_takeWhile_imp hA_mem
        rwa [decide_eq_true_eq] at this
      have hmax : ∀ b ∈ s.ts, b ≤ t →
          b ≤ s.ts.getD (bisect_right s.ts t - 1) 0 := by
        intro b hb hbt
        have hb' : b ∈ s.ts.takeWhile (fun b => decide (b ≤ t)) ∨
            b ∈ s.ts.dropWhile (fun b => decide (b ≤ t)) := by
          rw [← List.mem_append, List.takeWhile_append_dropWhile]
          exact hb
        rcases hb' with h1 | h1
        · rw [hA]
          exact sorted_le_getLastD
            (List.Pairwise.sublist (List.takeWhile_sublist _) hsort) h1 0
        · exact absurd hbt (by have := mem_dropWhile_gt hsort h1; omega)
      have hres : seriesAsof s t
          = (some (s.ts.getD (bisect_right s.ts t - 1) 0),
             some (s.px.getD (bisect_right s.ts t - 1) 0)) := by
        simp [seriesAsof, hE, hi0]
      constructor
      · constructor
        · intro hcontra
          rw [hres] at hcontra
          exact absurd hcontra (by simp)
        · intro hall
          have hA_ts : s.ts.getD (bisect_right s.ts t - 1) 0 ∈ s.ts :=
            (List.takeWhile_sublist _).subset hA_mem
          exact absurd (hall _ hA_ts) (not_lt.mpr hA_le)
      · intro a p hap
        rw [hres] at hap
        simp only [Prod.mk.injEq, Option.some.injEq] at hap
        obtain ⟨ha, hp⟩ := hap
        exact ⟨bisect_right s.ts t - 1, hidx, ha, hp, ha ▸ hA_le,
          fun b hb hbt => ha ▸ hmax b hb hbt⟩

/-- C1: for every (source, asset) series and query time t, `PriceCache.asof`
returns the stored entry with the greatest timestamp that is ≤ t, and
returns (None, None) exactly when the series does not exist, is empty, or
every retained entry is strictly newer than t. -/
theorem priceCache_asof_latest (c : PriceCache) (src ast : String) (t : Int)
    (h : c.Wf) :
    (c.asof src ast t = (none, none) ↔
      ∀ s, c.series (src, ast) = some s → ∀ b ∈ s.ts, t < b) ∧
    (∀ a p, c.asof src ast t = (some a, some p) →
      ∃ s, c.series (src, ast) = some s ∧
        ∃ i : Nat, i < s.ts.length ∧ s.ts.getD i 0 = a ∧ s.px.getD i 0 = p ∧
          a ≤ t ∧ ∀ b ∈ s.ts, b ≤ t → b ≤ a) := by
  cases hs : c.series (src, ast) with
  | none =>
    constructor
    · simp [PriceCache.asof, hs]
    · intro a p hap
      simp [PriceCache.asof, hs] at hap
  | some s =>
    obtain ⟨hiff, hsome⟩ := seriesAsof_spec s t (h _ _ hs)
    constructor
    · rw [show c.asof src ast t = seriesAsof s t by simp [PriceCache.asof, hs]]
      rw [hiff]
      constructor
      · intro hall s' hs'
        obtain rfl := Option.some.inj hs'
        exact hall
      · intro hall
        exact hall s rfl
    · intro a p hap
      rw [show c.asof src ast t = seriesAsof s t by simp [PriceCache.asof, hs]] at hap
      exact ⟨s, rfl, hsome a p hap⟩

/-- C1 witness: the theorem applied to a concrete one-entry cache. -/
theorem priceCache_asof_latest_witness :
    PriceCache.Wf ((PriceCache.init 1800).add "cl" "btc" 1000 5) ∧
    (((((PriceCache.init 1800).add "cl" "btc" 1000 5).asof "cl" "btc" 1500
        = (none, none)) ↔
      ∀ s, ((PriceCache.init 1800).add "cl" "btc" 1000 5).series ("cl", "btc")
          = some s → ∀ b ∈ s.ts, 1500 < b) ∧
    (∀ a p, ((PriceCache.init 1800).add "cl" "btc" 1000 5).asof "cl" "btc" 1500
        = (some a, some p) →
      ∃ s, ((PriceCache.init 1800).add "cl" "btc" 1000 5).series ("cl", "btc")
          = some s ∧
        ∃ i : Nat, i < s.ts.length ∧ s.ts.getD i 0 = a ∧ s.px.getD i 0 = p ∧
          a ≤ 1500 ∧ ∀ b ∈ s.ts, b ≤ 1500 → b ≤ a)) :=
  have hWf : PriceCache.Wf ((PriceCache.init 1800).add "cl" "btc" 1000 5) :=
    priceCacheWf_add (priceCacheWf_init 1800) "cl" "btc" 1000 5
  ⟨hWf, priceCache_asof_latest _ "cl" "btc" 1500 hWf⟩

/-- Effect of one `add` on the last timestamp of a non-empty series: an
in-order arrival becomes the new last element, an out-of-order arrival
leaves the previous last element in place (so it is not appended at the
end), and an out-of-order arrival inside the retention window is retained
at its sorted position. -/
theorem seriesAdd_last (maxAge : Int) (s : Series) (t : Int) (pr : ℚ)
    (h : s.Wf) (hma : 0 ≤ maxAge) (L : Int) (hL : s.ts.getLast? = some L) :
    (L ≤ t → (seriesAdd maxAge s t pr).ts.getLast? = some t) ∧
    (t < L → (seriesAdd maxAge s t pr).ts.getLast? = some L ∧
      (L - maxAge ≤ t → t ∈ (seriesAdd maxAge s t pr).ts)) := by
  obtain ⟨hsort1, hlen1, hmem1, hne1, _, hlast⟩ := seriesInsert_spec s t pr h
  have hlast' := hlast L hL
  obtain ⟨hev_ne, hev_last⟩ :=
    seriesEvict_getLast? maxAge (s := seriesInsert s t pr) hma hne1
  have hadd_last : (seriesAdd maxAge s t pr).ts.getLast? = some (max L t) := by
    rw [seriesAdd, hev_last, hlast']
  have hinsLD : (seriesInsert s t pr).ts.getLastD 0 = max L t := by
    have := getLast?_eq_getLastD hne1 (0 : Int)
    rw [hlast'] at this
    exact (Option.some.inj this).symm
  constructor
  · intro hle
    rw [hadd_last, max_eq_right hle]
  · intro hlt
    have hmaxL : max L t = L := max_eq_left (le_of_lt hlt)
    refine ⟨by rw [hadd_last, hmaxL], ?_⟩
    intro hret
    have htmem : t ∈ (seriesInsert s t pr).ts := (hmem1 t).mpr (Or.inl rfl)
    have hpt : decide (t ≤ (seriesInsert s t pr).ts.getLastD 0 - maxAge - 1)
        = false := by
      rw [hinsLD, hmaxL]
      simp only [decide_eq_false_iff_not]
      omega
    rw [seriesAdd, seriesEvict_ts]
    exact mem_dropWhile_of_mem _ htmem hpt

/-- Retention bound after one `add`: every surviving entry is within
`max_age_ms` of the surviving newest entry, and every candidate entry at or
inside the cutoff survives. -/
theorem seriesAdd_retention (maxAge : Int) (s : Series) (t : Int) (pr : ℚ)
    (h : s.Wf) (hma : 0 ≤ maxAge) :
    (∀ b ∈ (seriesAdd maxAge s t pr).ts,
      (seriesAdd maxAge s t pr).ts.getLastD 0 - maxAge ≤ b) ∧
    (∀ b, (b = t ∨ b ∈ s.ts) →
      (seriesAdd maxAge s t pr).ts.getLastD 0 - maxAge ≤ b →
      b ∈ (seriesAdd maxAge s t pr).ts) := by
  obtain ⟨hsort1, hlen1, hmem1, hne1, _, _⟩ := seriesInsert_spec s t pr h
  obtain ⟨hev_ne, hev_last⟩ :=
    seriesEvict_getLast? maxAge (s := seriesInsert s t pr) hma hne1
  have hLD : (seriesAdd maxAge s t pr).ts.getLastD 0
      = (seriesInsert s t pr).ts.getLastD 0 := by
    have h1 := getLast?_eq_getLastD (l := (seriesAdd maxAge s t pr).ts) hev_ne 0
    have h2 := getLast?_eq_getLastD (l := (seriesInsert s t pr).ts) hne1 0
    rw [seriesAdd] at h1
    rw [h1, h2] at hev_last
    exact Option.some.inj hev_last
  constructor
  · intro b hb
    rw [seriesAdd, seriesEvict_ts] at hb
    have := mem_dropWhile_gt hsort1 hb
    rw [hLD]
    omega
  · intro b hb hcut
    have hbmem : b ∈ (seriesInsert s t pr).ts := (hmem1 b).mpr hb
    have hpb : decide (b ≤ (seriesInsert s t pr).ts.getLastD 0 - maxAge - 1)
        = false := by
      simp only [decide_eq_false_iff_not]
      rw [← hLD]
      omega
    rw [seriesAdd, seriesEvict_ts]
    exact mem_dropWhile_of_mem _ hbmem hpb

/-- The series stored after `add` under the written key. -/
theorem priceCache_add_lookup (c : PriceCache) (src ast : String)
    (t : Int) (pr : ℚ) :
    (c.add src ast t pr).series (src, ast)
      = some (seriesAdd c.max_age_ms
          ((c.series (src, ast)).getD ⟨[], []⟩) t pr) := by
  simp [PriceCache.add]

/-- C2: after every insertion, in any arrival order, every series'
timestamp list is non-decreasing; an arrival at or after the current last
timestamp becomes the new last element, while an out-of-order arrival is
placed at its sorted position (the old last element stays last, and the
arrival is present when inside the retention window), never appended at
the end. -/
theorem priceCache_add_sorted_insert
    (maxAgeSec : Int) (ops : List (String × String × Int × ℚ))
    (c : PriceCache) (src ast : String) (t : Int) (pr : ℚ)
    (hc : c.Wf) (hma : 0 ≤ c.max_age_ms) :
    ((PriceCache.init maxAgeSec).addAll ops).Wf ∧
    (c.add src ast t pr).Wf ∧
    (∀ s s', c.series (src, ast) = some s →
      (c.add src ast t pr).series (src, ast) = some s' →
      ∀ L, s.ts.getLast? = some L →
        (L ≤ t → s'.ts.getLast? = some t) ∧
        (t < L → s'.ts.getLast? = some L ∧
          (L - c.max_age_ms ≤ t → t ∈ s'.ts))) := by
  refine ⟨priceCacheWf_addAll ops (priceCacheWf_init maxAgeSec),
    priceCacheWf_add hc src ast t pr, ?_⟩
  intro s s' hs hs' L hL
  rw [priceCache_add_lookup, hs] at hs'
  obtain rfl := Option.some.inj hs'
  exact seriesAdd_last c.max_age_ms s t pr (hc _ _ hs) hma L hL

/-- C2 witness: out-of-order arrival into a concrete one-entry series. -/
theorem priceCache_add_sorted_insert_witness :
    (((PriceCache.init 1800).add "cl" "btc" 1000 5).Wf ∧
      0 ≤ ((PriceCache.init 1800).add "cl" "btc" 1000 5).max_age_ms) ∧
    (((PriceCache.init 1800).addAll []).Wf ∧
      (((PriceCache.init 1800).add "cl" "btc" 1000 5).add "cl" "btc" 500 4).Wf ∧
      (∀ s s', ((PriceCache.init 1800).add "cl" "btc" 1000 5).series ("cl", "btc")
            = some s →
        ((((PriceCache.init 1800).add "cl" "btc" 1000 5).add "cl" "btc" 500 4).series
            ("cl", "btc")) = some s' →
        ∀ L, s.ts.getLast? = some L →
          (L ≤ 500 → s'.ts.getLast? = some 500) ∧
          (500 < L → s'.ts.getLast? = some L ∧
            (L - ((PriceCache.init 1800).add "cl" "btc" 1000 5).max_age_ms ≤ 500 →
              (500 : Int) ∈ s'.ts)))) :=
  have hWf : ((PriceCache.init 1800).add "cl" "btc" 1000 5).Wf :=
    priceCacheWf_add (priceCacheWf_init 1800) "cl" "btc" 1000 5
  have hma : 0 ≤ ((PriceCache.init 1800).add "cl" "btc" 1000 5).max_age_ms := by
    norm_num [PriceCache.add, PriceCache.init]
  ⟨⟨hWf, hma⟩,
    priceCache_add_sorted_insert 1800 [] _ "cl" "btc" 500 4 hWf hma⟩

/-- C3: after every `add`, no retained entry of the written series is
strictly older than the newest retained timestamp minus `max_age_ms`, and
every candidate entry at or inside that cutoff (in particular one exactly
at the cutoff) is retained. -/
theorem priceCache_add_retention (c : PriceCache) (src ast : String)
    (t : Int) (pr : ℚ) (h : c.Wf) (hma : 0 ≤ c.max_age_ms) :
    ∀ s', (c.add src ast t pr).series (src, ast) = some s' →
      (∀ b ∈ s'.ts, s'.ts.getLastD 0 - c.max_age_ms ≤ b) ∧
      (∀ b, (b = t ∨ b ∈ ((c.series (src, ast)).getD ⟨[], []⟩).ts) →
        s'.ts.getLastD 0 - c.max_age_ms ≤ b → b ∈ s'.ts) := by
  intro s' hs'
  rw [priceCache_add_lookup] at hs'
  obtain rfl := Option.some.inj hs'
  apply seriesAdd_retention c.max_age_ms _ t pr _ hma
  cases hs : c.series (src, ast) with
  | none => simpa [hs] using seriesWf_empty
  | some s0 => simpa [hs] using h _ _ hs

/-- C3 witness: the theorem applied to a concrete cache where the second
arrival sits exactly at the retention cutoff. -/
theorem priceCache_add_retention_witness :
    (((PriceCache.init 1800).add "cl" "btc" 1800000 5).Wf ∧
      0 ≤ ((PriceCache.init 1800).add "cl" "btc" 1800000 5).max_age_ms) ∧
    (∀ s', ((((PriceCache.init 1800).add "cl" "btc" 1800000 5).add
        "cl" "btc" 3600000 6).series ("cl", "btc")) = some s' →
      (∀ b ∈ s'.ts,
        s'.ts.getLastD 0 -
          ((PriceCache.init 1800).add "cl" "btc" 1800000 5).max_age_ms ≤ b) ∧
      (∀ b, (b = 3600000 ∨
          b ∈ ((((PriceCache.init 1800).add "cl" "btc" 1800000 5).series
            ("cl", "btc")).getD ⟨[], []⟩).ts) →
        s'.ts.getLastD 0 -
          ((PriceCache.init 1800).add "cl" "btc" 1800000 5).max_age_ms ≤ b →
        b ∈ s'.ts)) :=
  have hWf : ((PriceCache.init 1800).add "cl" "btc" 1800000 5).Wf :=
    priceCacheWf_add (priceCacheWf_init 1800) "cl" "btc" 1800000 5
  have hma : 0 ≤ ((PriceCache.init 1800).add "cl" "btc" 1800000 5).max_age_ms := by
    norm_num [PriceCache.add, PriceCache.init]
  ⟨⟨hWf, hma⟩,
    priceCache_add_retention _ "cl" "btc" 3600000 6 hWf hma⟩

/-! ## OrderBook (src/src/polymarket_capturer.py, lines 29 and 81-115)

Python floats become exact rationals; the size dicts `self.bids`/`self.asks`
are association lists with unique price keys in insertion order; `sorted`
with a price key is a stable merge sort under the respective comparator. -/

/-- Module constant `LEVELS = 5`. -/
def LEVELS : Nat := 5

/-- One step of Python `dict(pairs)`: an existing key is overwritten in
place, a new key is appended. -/
def dictInsert (d : List (ℚ × ℚ)) (kv : ℚ × ℚ) : List (ℚ × ℚ) :=
  if d.any (fun e => decide (e.1 = kv.1)) then
    d.map (fun e => if e.1 = kv.1 then (e.1, kv.2) else e)
  else d ++ [kv]

/-- Python `dict(pairs)` over a pair list. -/
def dictOfList (l : List (ℚ × ℚ)) : List (ℚ × ℚ) := l.foldl dictInsert []

/-- Comparator for bid levels: price descending (`key=x[0], reverse=True`). -/
def bidLE (a b : ℚ × ℚ) : Bool := decide (b.1 ≤ a.1)

/-- Comparator for ask levels: price ascending (`key=x[0]`). -/
def askLE (a b : ℚ × ℚ) : Bool := decide (a.1 ≤ b.1)

/-- State of the Python `OrderBook` object. -/
structure OrderBook where
  bids : List (ℚ × ℚ)
  asks : List (ℚ × ℚ)
  asset_id : String

/-- Python `OrderBook.book` (lines 88-100): sort each incoming side by
price (bids descending, asks ascending), truncate to `LEVELS`, build the
dicts, and assign them, fully replacing the previous levels. -/
def OrderBook.book (ob : OrderBook) (bids asks : List (ℚ × ℚ)) : OrderBook :=
  { ob with
    bids := dictOfList ((bids.mergeSort bidLE).take LEVELS)
    asks := dictOfList ((asks.mergeSort askLE).take LEVELS) }

/-- Python `OrderBook.snapshot` (lines 102-115): the ordered level lists it
enumerates into the `bid_price_i`/`bid_size_i` and `ask_price_i`/
`ask_size_i` fields of the output row. -/
def OrderBook.snapshot (ob : OrderBook) : List (ℚ × ℚ) × List (ℚ × ℚ) :=
  ((ob.bids.mergeSort bidLE).take LEVELS, (ob.asks.mergeSort askLE).take LEVELS)

/-- `dictInsert` keeps price keys distinct. -/
theorem dictInsert_keysNodup {d : List (ℚ × ℚ)}
    (h : (d.map Prod.fst).Nodup) (kv : ℚ × ℚ) :
    ((dictInsert d kv).map Prod.fst).Nodup := by
  unfold dictInsert
  by_cases hc : d.any (fun e => decide (e.1 = kv.1)) = true
  · rw [if_pos hc]
    have hmap : (d.map (fun e => if e.1 = kv.1 then (e.1, kv.2) else e)).map Prod.fst
        = d.map Prod.fst := by
      rw [List.map_map]
      apply List.map_congr_left
      intro e _
      by_cases he : e.1 = kv.1 <;> simp [he]
    rw [hmap]
    exact h
  · rw [if_neg hc]
    have hnotin : kv.1 ∉ d.map Prod.fst := by
      intro hmem
      obtain ⟨e, he, hfst⟩ := List.mem_map.mp hmem
      exact hc (List.any_eq_true.mpr ⟨e, he, by simpa using hfst⟩)
    have hperm : List.Perm ((d ++ [kv]).map Prod.fst) (kv.1 :: d.map Prod.fst) := by
      rw [List.map_append]
      exact List.perm_append_singleton kv.1 (d.map Prod.fst)
    rw [hperm.nodup_iff]
    exact List.nodup_cons.mpr ⟨hnotin, h⟩

/-- `dict(pairs)` has distinct price keys. -/
theorem dictOfList_keysNodup (l : List (ℚ × ℚ)) :
    ((dictOfList l).map Prod.fst).Nodup := by
  suffices hgen : ∀ (l : List (ℚ × ℚ)) (d : List (ℚ × ℚ)),
      (d.map Prod.fst).Nodup → ((l.foldl dictInsert d).map Prod.fst).Nodup by
    exact hgen l [] (by simp)
  intro l
  induction l with
  | nil => intro d hd; exact hd
  | cons kv rest ih =>
    intro d hd
    exact ih (dictInsert d kv) (dictInsert_keysNodup hd kv)

/-- Sorting a distinct-key level list under the bid comparator and
truncating yields strictly descending prices. -/
theorem mergeSort_take_desc (l : List (ℚ × ℚ))
    (h : (l.map Prod.fst).Nodup) (n : Nat) :
    ((l.mergeSort bidLE).take n).Pairwise (fun x y => y.1 < x.1) := by
  have htrans : ∀ a b c : ℚ × ℚ, bidLE a b → bidLE b c → bidLE a c := by
    intro a b c hab hbc
    simp only [bidLE, decide_eq_true_eq] at hab hbc ⊢
    exact hbc.trans hab
  have htotal : ∀ a b : ℚ × ℚ, bidLE a b || bidLE b a := by
    intro a b
    simp only [bidLE]
    rcases le_total a.1 b.1 with hab | hab <;> simp [hab]
  have hsorted : (l.mergeSort bidLE).Pairwise (fun a b => bidLE a b) :=
    List.sorted_mergeSort htrans htotal l
  have hperm : List.Perm (l.mergeSort bidLE) l := List.mergeSort_perm l bidLE
  have hnd : ((l.mergeSort bidLE).map Prod.fst).Nodup :=
    ((hperm.map Prod.fst).nodup_iff).mpr h
  have hne : (l.mergeSort bidLE).Pairwise (fun a b => a.1 ≠ b.1) :=
    List.pairwise_map.mp hnd
  have hstrict : (l.mergeSort bidLE).Pairwise (fun x y => y.1 < x.1) := by
    refine (hsorted.and hne).imp ?_
    intro a b hab
    obtain ⟨h1, h2⟩ := hab
    simp only [bidLE, decide_eq_true_eq] at h1
    exact lt_of_le_of_ne h1 (fun hq => h2 hq.symm)
  exact List.Pairwise.sublist (List.take_sublist n _) hstrict

/-- Sorting a distinct-key level list under the ask comparator and
truncating yields strictly ascending prices. -/
theorem mergeSort_take_asc (l : List (ℚ × ℚ))
    (h : (l.map Prod.fst).Nodup) (n : Nat) :
    ((l.mergeSort askLE).take n).Pairwise (fun x y => x.1 < y.1) := by
  have htrans : ∀ a b c : ℚ × ℚ, askLE a b → askLE b c → askLE a c := by
    intro a b c hab hbc
    simp only [askLE, decide_eq_true_eq] at hab hbc ⊢
    exact hab.trans hbc
  have htotal : ∀ a b : ℚ × ℚ, askLE a b || askLE b a := by
    intro a b
    simp only [askLE]
    rcases le_total a.1 b.1 with hab | hab <;> simp [hab]
  have hsorted : (l.mergeSort askLE).Pairwise (fun a b => askLE a b) :=
    List.sorted_mergeSort htrans htotal l
  have hperm : List.Perm (l.mergeSort askLE) l := List.mergeSort_perm l askLE
  have hnd : ((l.mergeSort askLE).map Prod.fst).Nodup :=
    ((hperm.map Prod.fst).nodup_iff).mpr h
  have hne : (l.mergeSort askLE).Pairwise (fun a b => a.1 ≠ b.1) :=
    List.pairwise_map.mp hnd
  have hstrict : (l.mergeSort askLE).Pairwise (fun x y => x.1 < y.1) := by
    refine (hsorted.and hne).imp ?_
    intro a b hab
    obtain ⟨h1, h2⟩ := hab
    simp only [askLE, decide_eq_true_eq] at h1
    exact lt_of_le_of_ne h1 h2
  exact List.Pairwise.sublist (List.take_sublist n _) hstrict

/-- C4: `book` fully replaces the previous level set (the result does not
depend on the prior levels), and the subsequent `snapshot` returns at most
`LEVELS = 5` bid levels in strictly descending price order and at most 5
ask levels in strictly ascending price order. -/
theorem orderBook_snapshot_levels (ob1 ob2 : OrderBook)
    (bids asks : List (ℚ × ℚ)) :
    ((ob1.book bids asks).bids = (ob2.book bids asks).bids ∧
     (ob1.book bids asks).asks = (ob2.book bids asks).asks) ∧
    ((ob1.book bids asks).snapshot.1.length ≤ LEVELS ∧
     (ob1.book bids asks).snapshot.1.Pairwise (fun x y => y.1 < x.1)) ∧
    ((ob1.book bids asks).snapshot.2.length ≤ LEVELS ∧
     (ob1.book bids asks).snapshot.2.Pairwise (fun x y => x.1 < y.1)) := by
  refine ⟨⟨rfl, rfl⟩, ⟨?_, ?_⟩, ⟨?_, ?_⟩⟩
  · simp [OrderBook.snapshot]
  · exact mergeSort_take_desc _
      (dictOfList_keysNodup ((bids.mergeSort bidLE).take LEVELS)) LEVELS
  · simp [OrderBook.snapshot]
  · exact mergeSort_take_asc _
      (dictOfList_keysNodup ((asks.mergeSort askLE).take LEVELS)) LEVELS

/-! ## PricingModel (src/src/pricing.py)

Floats become real numbers; `scipy.stats.norm.cdf` is an external function
and is taken as a parameter `cdf` of the embedding (none of the verified
claims depends on its values). -/

/-- The possible shapes of the dict returned by
`PricingModel.compute_fair_value`. -/
inductive FVResult where
  | error : FVResult
  | expired (fair_value_yes fair_value_no : ℝ) : FVResult
  | live (fair_value_yes fair_value_no z_score distance sigma_remaining : ℝ) :
      FVResult

/-- The `sigma_remaining` field of a live result. -/
def FVResult.sigma? : FVResult → Option ℝ
  | .live _ _ _ _ s => some s
  | _ => none

/-- The `fair_value_yes` field of an expired or live result. -/
def FVResult.yes? : FVResult → Option ℝ
  | .expired y _ => some y
  | .live y _ _ _ _ => some y
  | _ => none

/-- `distance = math.log(current_price / strike_price)` (line 57). -/
noncomputable def fv_distance (current_price strike_price : ℝ) : ℝ :=
  Real.log (current_price / strike_price)

/-- Lines 60-63: `sigma_remaining = volatility_1m * sqrt(minutes_remaining)`,
then `if sigma_remaining == 0: sigma_remaining = 0.001`. -/
noncomputable def fv_sigma (volatility_1m minutes_remaining : ℝ) : ℝ :=
  if volatility_1m * Real.sqrt minutes_remaining = 0 then 0.001
  else volatility_1m * Real.sqrt minutes_remaining

/-- Python `PricingModel.compute_fair_value` (lines 19-78): reject
non-positive prices; resolve deterministically at or past expiry
(`current_price > strike_price` gives fair_yes 1.0, else 0.0); otherwise
return the live result built from `z = distance / sigma_remaining` and
`fair_value_yes = norm.cdf(z)`. -/
noncomputable def compute_fair_value (cdf : ℝ → ℝ)
    (current_price strike_price volatility_1m minutes_remaining : ℝ) :
    FVResult :=
  if current_price ≤ 0 ∨ strike_price ≤ 0 then FVResult.error
  else if minutes_remaining ≤ 0 then
    (if strike_price < current_price then FVResult.expired 1 0
     else FVResult.expired 0 1)
  else
    FVResult.live
      (cdf (fv_distance current_price strike_price /
        fv_sigma volatility_1m minutes_remaining))
      (1 - cdf (fv_distance current_price strike_price /
        fv_sigma volatility_1m minutes_remaining))
      (fv_distance current_price strike_price /
        fv_sigma volatility_1m minutes_remaining)
      (fv_distance current_price strike_price)
      (fv_sigma volatility_1m minutes_remaining)

/-- C5: with positive prices and non-positive minutes remaining, the result
is the deterministic expired resolution: fair_yes is exactly 1.0 when the
current price exceeds the strike and exactly 0.0 otherwise, with fair_no
its complement, for every cdf and volatility. -/
theorem compute_fair_value_expired (cdf : ℝ → ℝ) (cp k vol m : ℝ)
    (hcp : 0 < cp) (hk : 0 < k) (hm : m ≤ 0) :
    compute_fair_value cdf cp k vol m
      = if k < cp then FVResult.expired 1 0 else FVResult.expired 0 1 := by
  unfold compute_fair_value
  rw [if_neg (by push_neg; exact ⟨hcp, hk⟩), if_pos hm]

/-- C5 witness: the theorem applied at concrete expired inputs. -/
theorem compute_fair_value_expired_witness :
    (0 : ℝ) < 2 ∧ (0 : ℝ) < 1 ∧ (0 : ℝ) ≤ 0 ∧
    compute_fair_value (fun _ => 0) 2 1 0 0
      = if (1 : ℝ) < 2 then FVResult.expired 1 0 else FVResult.expired 0 1 :=
  ⟨by norm_num, by norm_num, le_refl 0,
    compute_fair_value_expired (fun _ => 0) 2 1 0 0 (by norm_num) (by norm_num)
      (le_refl 0)⟩

/-- C6 amended: in the live branch the z-score divisor is
`volatility_1m * sqrt(minutes_remaining)` and is replaced by the epsilon
0.001 only when that product is exactly zero; the divisor is never zero,
but it is not floored to 0.001 in general. -/
theorem compute_fair_value_sigma (cdf : ℝ → ℝ) (cp k vol m : ℝ)
    (hcp : 0 < cp) (hk : 0 < k) (hm : 0 < m) :
    (compute_fair_value cdf cp k vol m).sigma? = some (fv_sigma vol m) ∧
    fv_sigma vol m ≠ 0 ∧
    (vol * Real.sqrt m ≠ 0 → fv_sigma vol m = vol * Real.sqrt m) ∧
    (vol * Real.sqrt m = 0 → fv_sigma vol m = 0.001) := by
  refine ⟨?_, ?_, ?_, ?_⟩
  · unfold compute_fair_value
    rw [if_neg (by push_neg; exact ⟨hcp, hk⟩), if_neg (not_le.mpr hm)]
    rfl
  · unfold fv_sigma
    by_cases h0 : vol * Real.sqrt m = 0
    · rw [if_pos h0]; norm_num
    · rw [if_neg h0]; exact h0
  · intro h0; unfold fv_sigma; rw [if_neg h0]
  · intro h0; unfold fv_sigma; rw [if_pos h0]

/-- C6 counterexample: at volatility 1/2000 and one minute remaining the
divisor actually used is 1/2000, which is strictly below the claimed floor
0.001 = 1/1000. -/
theorem compute_fair_value_sigma_not_floored :
    (compute_fair_value (fun _ => 0) 2 1 (1/2000) 1).sigma? = some (1/2000) ∧
    ((1/2000 : ℝ) < 0.001) := by
  constructor
  · have hs : fv_sigma (1/2000 : ℝ) 1 = 1/2000 := by
      unfold fv_sigma
      rw [Real.sqrt_one]
      norm_num
    unfold compute_fair_value
    rw [if_neg (by norm_num), if_neg (by norm_num)]
    show some (fv_sigma (1/2000 : ℝ) 1) = some (1/2000 : ℝ)
    rw [hs]
  · norm_num

/-- C6 witness: the amended theorem applied at the same concrete input. -/
theorem compute_fair_value_sigma_witness :
    (0 : ℝ) < 2 ∧ (0 : ℝ) < 1 ∧ (0 : ℝ) < 1 ∧
    ((compute_fair_value (fun _ => 0) 2 1 (1/2000) 1).sigma?
        = some (fv_sigma (1/2000) 1) ∧
      fv_sigma (1/2000) 1 ≠ 0 ∧
      ((1/2000 : ℝ) * Real.sqrt 1 ≠ 0 →
        fv_sigma (1/2000) 1 = (1/2000 : ℝ) * Real.sqrt 1) ∧
      ((1/2000 : ℝ) * Real.sqrt 1 = 0 → fv_sigma (1/2000) 1 = 0.001)) :=
  ⟨by norm_num, by norm_num, by norm_num,
    compute_fair_value_sigma (fun _ => 0) 2 1 (1/2000) 1 (by norm_num)
      (by norm_num) (by norm_num)⟩

/-- The loop of `estimate_vol_from_prices` (lines 131-135): for each
adjacent pair with both prices positive, append
`math.log(price_history[i] / price_history[i-1])`. -/
noncomputable def log_returns : List ℝ → List ℝ
  | p0 :: p1 :: rest =>
    if 0 < p1 ∧ 0 < p0 then Real.log (p1 / p0) :: log_returns (p1 :: rest)
    else log_returns (p1 :: rest)
  | _ => []

/-- Python `PricingModel.estimate_vol_from_prices` (lines 119-145): default
0.01 for a history shorter than 2 or an empty returns list, otherwise the
square root of `sum((r - mean)^2) / len(returns)`. -/
noncomputable def estimate_vol_from_prices (price_history : List ℝ) : ℝ :=
  if price_history.length < 2 then 0.01
  else if log_returns price_history = [] then 0.01
  else
    Real.sqrt
      (((log_returns price_history).map
          (fun r => (r - (log_returns price_history).sum /
            ((log_returns price_history).length : ℝ)) ^ 2)).sum /
        ((log_returns price_history).length : ℝ))

/-- Specification form of the loop: log-returns of the adjacent pairs whose
prices are both positive. -/
noncomputable def validLogReturns (ps : List ℝ) : List ℝ :=
  ((ps.zip ps.tail).filter
      (fun q => decide (0 < q.2) && decide (0 < q.1))).map
    (fun q => Real.log (q.2 / q.1))

/-- Population (divide-by-n) standard deviation of a list. -/
noncomputable def popStdDev (l : List ℝ) : ℝ :=
  Real.sqrt
    ((l.map (fun r => (r - l.sum / (l.length : ℝ)) ^ 2)).sum / (l.length : ℝ))

/-- The loop computes exactly the valid log-returns. -/
theorem log_returns_eq_valid : ∀ ps : List ℝ, log_returns ps = validLogReturns ps
  | [] => rfl
  | [_] => rfl
  | p0 :: p1 :: rest => by
    have ih := log_returns_eq_valid (p1 :: rest)
    unfold log_returns validLogReturns
    rw [List.tail_cons, List.zip_cons_cons, List.filter_cons]
    by_cases h : 0 < p1 ∧ 0 < p0
    · have hg : (decide (0 < (p0, p1).2) && decide (0 < (p0, p1).1)) = true := by
        simp only [Bool.and_eq_true, decide_eq_true_eq]
        exact h
      rw [if_pos h, if_pos hg, List.map_cons, ih]
      unfold validLogReturns
      rw [List.tail_cons]
    · have hg : (decide (0 < (p0, p1).2) && decide (0 < (p0, p1).1)) = false := by
        simp only [Bool.and_eq_true, decide_eq_true_eq]
        simpa using h
      rw [if_neg h, if_neg (by rw [hg]; simp), ih]
      unfold validLogReturns
      rw [List.tail_cons]

/-- A history shorter than 2 has no adjacent pair. -/
theorem validLogReturns_short : ∀ {ps : List ℝ}, ps.length < 2 →
    validLogReturns ps = []
  | [], _ => rfl
  | [_], _ => rfl
  | _ :: _ :: _, h => by
    simp only [List.length_cons] at h
    omega

/-- C7 amended: `estimate_vol_from_prices` returns the population
(divide-by-n) standard deviation of the valid log-returns, and returns the
0.01 default exactly when no valid log-return exists (in particular for a
history shorter than 2); a single valid log-return yields 0, the standard
deviation of a one-element sample, not the default. -/
theorem estimate_vol_population (ps : List ℝ) :
    (estimate_vol_from_prices ps
      = if validLogReturns ps = [] then 0.01
        else popStdDev (validLogReturns ps)) ∧
    (∀ r : ℝ, popStdDev [r] = 0) := by
  constructor
  · unfold estimate_vol_from_prices
    by_cases hlen : ps.length < 2
    · rw [if_pos hlen, if_pos (validLogReturns_short hlen)]
    · rw [if_neg hlen, log_returns_eq_valid]
      by_cases hnil : validLogReturns ps = []
      · rw [if_pos hnil, if_pos hnil]
      · rw [if_neg hnil, if_neg hnil]
        unfold popStdDev
        rfl
  · intro r
    unfold popStdDev
    simp

/-- C7 counterexample: the history [1, 1] yields exactly one valid
log-return (fewer than 2), yet the function returns 0 rather than the
claimed 0.01 default. -/
theorem estimate_vol_single_return :
    (log_returns [1, 1]).length = 1 ∧ (log_returns [1, 1]).length < 2 ∧
    estimate_vol_from_prices [1, 1] = 0 ∧ (0 : ℝ) ≠ 0.01 := by
  have h1 : log_returns [(1 : ℝ)] = [] := rfl
  have hlr : log_returns [(1 : ℝ), 1] = [Real.log 1] := by
    unfold log_returns
    rw [if_pos (⟨one_pos, one_pos⟩ : (0 : ℝ) < 1 ∧ (0 : ℝ) < 1), h1]
    norm_num
  refine ⟨by rw [hlr]; rfl, by rw [hlr]; norm_num, ?_, by norm_num⟩
  unfold estimate_vol_from_prices
  rw [if_neg (by norm_num), hlr, Real.log_one]
  rw [if_neg (by simp)]
  norm_num

/-! ## GammaClient.scan_15m_events (src/src/polymarket_capturer.py, 117-164)

One page fetch `self.get("events", …, offset=200*k)` either raises
(`requests` error or `r.raise_for_status()` / JSON decode failure) or
returns a list of event objects; this is the oracle `pages k : Except Unit
(List GEvent)`.  The horizon `[now - horizon, now + horizon]` is the
abstract interval `[lo, hi]`. -/

/-- The per-event fields the scan loop reads: the `recurrence` value of
each entry of `series` (none when the key is missing), and the parsed
event start time — none when `eventStartTime`/`startTime` is missing,
falsy, or `parse_iso` raises, since each of those paths skips the event. -/
structure GEvent where
  recurrences : List (Option String)
  start? : Option Int
deriving DecidableEq

/-- The per-event filter of the scan loop (lines 146-160): require a series
entry with recurrence "15m" and a parsed start time inside the horizon. -/
def keepEvent (lo hi : Int) (e : GEvent) : Bool :=
  e.recurrences.any (fun r => r == some "15m") &&
  match e.start? with
  | none => false
  | some st => decide (lo ≤ st) && decide (st ≤ hi)

/-- The paging loop (lines 134-162): at most 20 pages; a failed fetch
propagates out of the loop (there is no try/except around `self.get`); an
empty page ends the scan; otherwise the page's matching events are
appended and scanning continues at the next offset. -/
def scanGo (pages : Nat → Except Unit (List GEvent)) (lo hi : Int) :
    Nat → Nat → List GEvent → Except Unit (List GEvent)
  | 0, _, out => Except.ok out
  | n + 1, page, out =>
    match pages page with
    | Except.error err => Except.error err
    | Except.ok [] => Except.ok out
    | Except.ok data =>
      scanGo pages lo hi n (page + 1) (out ++ data.filter (keepEvent lo hi))

/-- Python `GammaClient.scan_15m_events` (lines 128-164). -/
def scan_15m_events (pages : Nat → Except Unit (List GEvent)) (lo hi : Int) :
    Except Unit (List GEvent) :=
  scanGo pages lo hi 20 0 []

/-- Modelled from the spec's words in §4.3 ("network/parse errors on one
page are non-fatal — the page is skipped and scanning continues"), for
comparison with the code's behaviour; every other aspect follows the code. -/
def scanGoSpecModel (pages : Nat → Except Unit (List GEvent)) (lo hi : Int) :
    Nat → Nat → List GEvent → List GEvent
  | 0, _, out => out
  | n + 1, page, out =>
    match pages page with
    | Except.error _ => scanGoSpecModel pages lo hi n (page + 1) out
    | Except.ok [] => out
    | Except.ok data =>
      scanGoSpecModel pages lo hi n (page + 1) (out ++ data.filter (keepEvent lo hi))

/-- The spec's skip-and-continue scan. -/
def scan_15m_events_specModel (pages : Nat → Except Unit (List GEvent))
    (lo hi : Int) : List GEvent :=
  scanGoSpecModel pages lo hi 20 0 []

/-- An event carrying the 15-minute recurrence tag with start time 50. -/
def ev15 : GEvent := ⟨[some "15m"], some 50⟩

/-- Page oracle where fetching the first page fails and the second page
holds one matching event. -/
def pagesErrFirst : Nat → Except Unit (List GEvent) :=
  fun k =>
    if k = 0 then Except.error ()
    else if k = 1 then Except.ok [ev15] else Except.ok []

/-- C8 counterexample: with an error on page 0 and a matching event on page
1, the scan aborts with the propagated error instead of skipping the page;
the spec's skip-and-continue reading would have returned the event. -/
theorem scan_aborts_on_page_error :
    scan_15m_events pagesErrFirst 0 100 = Except.error () ∧
    scan_15m_events_specModel pagesErrFirst 0 100 = [ev15] := by
  exact ⟨rfl, rfl⟩

/-- One loop iteration when the fetch of the current page raises: the
error propagates out of the loop. -/
theorem scanGo_step_err (pages : Nat → Except Unit (List GEvent)) (lo hi : Int)
    (n page : Nat) (out : List GEvent) (err : Unit)
    (hd : pages page = Except.error err) :
    scanGo pages lo hi (n + 1) page out = Except.error err := by
  unfold scanGo
  rw [hd]

/-- One loop iteration on an empty page: the scan ends with the events
collected so far. -/
theorem scanGo_step_nil (pages : Nat → Except Unit (List GEvent)) (lo hi : Int)
    (n page : Nat) (out : List GEvent) (hd : pages page = Except.ok []) :
    scanGo pages lo hi (n + 1) page out = Except.ok out := by
  unfold scanGo
  rw [hd]

/-- One loop iteration on a non-empty page: the page's matching events are
appended and scanning continues at the next offset. -/
theorem scanGo_step_ok (pages : Nat → Except Unit (List GEvent)) (lo hi : Int)
    (n page : Nat) (out : List GEvent) {d : List GEvent}
    (hd : pages page = Except.ok d) (hne : d ≠ []) :
    scanGo pages lo hi (n + 1) page out
      = scanGo pages lo hi n (page + 1) (out ++ d.filter (keepEvent lo hi)) := by
  conv_lhs => unfold scanGo
  rw [hd]
  match d, hne with
  | _ :: _, _ => rfl

/-- An error on any page the loop reaches (every earlier page from the
current one on was fetched successfully and non-empty) aborts the whole
remaining scan with that error. -/
theorem scanGo_error (pages : Nat → Except Unit (List GEvent)) (lo hi : Int)
    (err : Unit) :
    ∀ (k n page : Nat) (out : List GEvent), k < n →
      (∀ j, j < k → ∃ d, pages (page + j) = Except.ok d ∧ d ≠ []) →
      pages (page + k) = Except.error err →
      scanGo pages lo hi n page out = Except.error err := by
  intro k
  induction k with
  | zero =>
    intro n page out hn _ herr
    rw [Nat.add_zero] at herr
    obtain ⟨n', rfl⟩ : ∃ n', n = n' + 1 := ⟨n - 1, by omega⟩
    exact scanGo_step_err pages lo hi n' page out err herr
  | succ j ih =>
    intro n page out hn hok herr
    obtain ⟨d, hd, hdne⟩ := hok 0 (Nat.succ_pos j)
    rw [Nat.add_zero] at hd
    obtain ⟨n', rfl⟩ : ∃ n', n = n' + 1 := ⟨n - 1, by omega⟩
    rw [scanGo_step_ok pages lo hi n' page out hd hdne]
    apply ih n' (page + 1) _ (by omega)
    · intro i hi
      obtain ⟨d', hd', hdne'⟩ := hok (i + 1) (by omega)
      refine ⟨d', ?_, hdne'⟩
      rw [show page + 1 + i = page + (i + 1) from by omega]
      exact hd'
    · rw [show page + 1 + j = page + (j + 1) from by omega]
      exact herr

/-- An error-free loop run returns exactly the concatenated per-event
filtered pages up to the first empty page (or the page budget). -/
theorem scanGo_ok (f : Nat → List GEvent) (lo hi : Int) :
    ∀ (m n page : Nat) (out : List GEvent), m ≤ n →
      (∀ j, j < m → f (page + j) ≠ []) →
      (m < n → f (page + m) = []) →
      scanGo (fun k => Except.ok (f k)) lo hi n page out
        = Except.ok (out ++ ((List.range m).map
            (fun j => (f (page + j)).filter (keepEvent lo hi))).flatten) := by
  intro m
  induction m with
  | zero =>
    intro n page out _ _ hstop
    simp only [List.range_zero, List.map_nil, List.flatten_nil, List.append_nil]
    cases n with
    | zero => rfl
    | succ n' =>
      have h0 : f (page + 0) = [] := hstop (Nat.succ_pos n')
      rw [Nat.add_zero] at h0
      exact scanGo_step_nil _ lo hi n' page out (by rw [h0])
  | succ j ih =>
    intro n page out hmn hne hstop
    obtain ⟨n', rfl⟩ : ∃ n', n = n' + 1 := ⟨n - 1, by omega⟩
    have h0 : f page ≠ [] := by
      have := hne 0 (Nat.succ_pos j)
      rwa [Nat.add_zero] at this
    have hne' : ∀ i, i < j → f (page + 1 + i) ≠ [] := by
      intro i hi
      have := hne (i + 1) (by omega)
      rwa [show page + (i + 1) = page + 1 + i from by omega] at this
    have hstop' : j < n' → f (page + 1 + j) = [] := by
      intro hj
      have := hstop (by omega)
      rwa [show page + (j + 1) = page + 1 + j from by omega] at this
    rw [scanGo_step_ok _ lo hi n' page out rfl h0]
    rw [ih n' (page + 1) (out ++ (f page).filter (keepEvent lo hi))
      (by omega) hne' hstop']
    congr 1
    rw [List.range_succ_eq_map, List.map_cons, List.flatten_cons, List.map_map,
      Nat.add_zero, List.append_assoc]
    congr 2
    refine congrArg List.flatten ?_
    apply List.map_congr_left
    intro i _
    have harith : page + 1 + i = page + (i + 1) := by omega
    simp [Function.comp_apply, harith]

/-- C8 amended: an error raised while fetching or decoding any page the
loop reaches is fatal — it propagates and aborts the whole scan; only
individual events (missing or unparsable start time, no 15m recurrence,
start outside the horizon) are skipped, and every error-free scan returns
exactly the per-event filtered pages up to the first empty page or the
20-page budget. -/
theorem scan_page_error_aborts (pages : Nat → Except Unit (List GEvent))
    (lo hi : Int) (err : Unit) (k : Nat) (hk : k < 20)
    (hreach : ∀ j, j < k → ∃ d, pages j = Except.ok d ∧ d ≠ [])
    (herr : pages k = Except.error err) :
    scan_15m_events pages lo hi = Except.error err ∧
    (∀ (f : Nat → List GEvent) (m : Nat), m ≤ 20 →
      (∀ j, j < m → f j ≠ []) → (m < 20 → f m = []) →
      scan_15m_events (fun i => Except.ok (f i)) lo hi
        = Except.ok (((List.range m).map
            (fun j => (f j).filter (keepEvent lo hi))).flatten)) := by
  constructor
  · apply scanGo_error pages lo hi err k 20 0 [] hk
    · intro j hj
      rw [Nat.zero_add]
      exact hreach j hj
    · rw [Nat.zero_add]
      exact herr
  · intro f m hm hne hstop
    have := scanGo_ok f lo hi m 20 0 []
      hm (by intro j hj; rw [Nat.zero_add]; exact hne j hj)
      (by intro h; rw [Nat.zero_add]; exact hstop h)
    rw [scan_15m_events, this, List.nil_append]
    congr 1
    congr 1
    apply List.map_congr_left
    intro j _
    rw [Nat.zero_add]

/-- Page oracle where the first page succeeds with one matching event and
fetching the second page fails. -/
def pagesErrSecond : Nat → Except Unit (List GEvent) :=
  fun k => if k = 0 then Except.ok [ev15] else Except.error ()

/-- C8 witness: the amended theorem applied with the error on page 1,
reached after a successful non-empty page 0, and the error-free clause
instantiated at a concrete two-page catalog. -/
theorem scan_page_error_aborts_witness :
    ((1 : Nat) < 20 ∧
      (∀ j, j < 1 → ∃ d, pagesErrSecond j = Except.ok d ∧ d ≠ []) ∧
      pagesErrSecond 1 = Except.error ()) ∧
    (scan_15m_events pagesErrSecond 0 100 = Except.error () ∧
     (∀ (f : Nat → List GEvent) (m : Nat), m ≤ 20 →
       (∀ j, j < m → f j ≠ []) → (m < 20 → f m = []) →
       scan_15m_events (fun i => Except.ok (f i)) 0 100
         = Except.ok (((List.range m).map
             (fun j => (f j).filter (keepEvent 0 100))).flatten))) :=
  have hreach : ∀ j, j < 1 → ∃ d, pagesErrSecond j = Except.ok d ∧ d ≠ [] := by
    intro j hj
    obtain rfl : j = 0 := by omega
    exact ⟨[ev15], rfl, by simp⟩
  ⟨⟨by norm_num, hreach, rfl⟩,
    scan_page_error_aborts pagesErrSecond 0 100 () 1 (by norm_num) hreach rfl⟩

/-! ## BacktestRunner.backtest_detector signal grading
(src/backtest/runner.py, lines 66-90) -/

/-- The `action` field of a detector signal; anything other than "long" or
"short" falls into the final else branch. -/
inductive Action where
  | long
  | short
  | other
deriving DecidableEq

/-- Lines 76-86: the win/loss flag and per-trade P&L of one evaluated
signal; `0.5` is the loss-penalty factor applied to losing trades. -/
def evalSignal (action : Action) (entry_price confidence settlement_price : ℚ) :
    Bool × ℚ :=
  match action with
  | Action.long =>
    (decide (entry_price < settlement_price),
     if entry_price < settlement_price then
       (settlement_price - entry_price) * confidence
     else (-(entry_price - settlement_price)) * confidence * (1/2))
  | Action.short =>
    (decide (settlement_price < entry_price),
     if settlement_price < entry_price then
       (entry_price - settlement_price) * confidence
     else (-(settlement_price - entry_price)) * confidence * (1/2))
  | Action.other => (false, 0)

/-- C9: a long signal wins exactly when settlement > entry and a short one
exactly when settlement < entry; a winning trade's P&L is the directional
delta times confidence, a losing trade's is the directional delta times
confidence times the loss-penalty 0.5; in particular (short, entry 0.80,
confidence 0.6, settlement 0.90) grades as a loss with P&L −0.03. -/
theorem backtest_eval_signal (e c s : ℚ) :
    ((evalSignal Action.long e c s).1 = true ↔ e < s) ∧
    ((evalSignal Action.short e c s).1 = true ↔ s < e) ∧
    ((evalSignal Action.long e c s).2
      = if e < s then (s - e) * c else (s - e) * c * (1/2)) ∧
    ((evalSignal Action.short e c s).2
      = if s < e then (e - s) * c else (e - s) * c * (1/2)) ∧
    evalSignal Action.short (4/5) (3/5) (9/10) = (false, -(3/100)) := by
  refine ⟨by simp [evalSignal], by simp [evalSignal], ?_, ?_, ?_⟩
  · by_cases h : e < s
    · simp [evalSignal, h]
    · simp only [evalSignal, if_neg h]
      ring
  · by_cases h : s < e
    · simp [evalSignal, h]
    · simp only [evalSignal, if_neg h]
      ring
  · simp only [evalSignal]
    norm_num

/-- C10: a signal whose settlement price equals its entry price grades as a
loss with P&L exactly 0. -/
theorem backtest_eval_signal_flat (e c : ℚ) :
    evalSignal Action.long e c e = (false, 0) ∧
    evalSignal Action.short e c e = (false, 0) := by
  constructor <;> simp [evalSignal]

end OpenClaw
